import Mathlib

/-!
Verification development for the incremental fixpoint orchestration engine of
`removeUnusedExport.ts` (dead-export removal over a module dependency graph).

The shallow embedding below translates the orchestration core from the source:
the seeding loop, the per-task decision application (`applyResult`), the task
step with its existence/abort checks (`taskStep`), a sequential run loop, the
`processFile` decision switch, and the deferred whole-reexport cleanup
(`removeWholeExportSpecifier`).

Collaborators of the core that are not part of the translated source file
(the `FileService` map operations, the `DependencyGraph` vertex bookkeeping,
the `TaskManager` abort signal, and the `parseFile`/`findFileUsage` analyzers)
are modelled from the specification; each such definition carries a doc
comment saying so.
-/

namespace Tsr

/-! ## Module store -/

/-- Modelled from the spec: the Module Store (§6.1) is a mutable map of module
path to source text.  It is embedded as an association list whose order is the
enumeration order of `getFileNames()`. -/
abbrev StoreOf (α : Type) := List (String × α)

abbrev Store := StoreOf String

namespace FileService

/-- Modelled from the spec: `fileService.exists(path)` (§6.1). -/
def exists' {α : Type} (s : StoreOf α) (f : String) : Bool :=
  s.any (fun p => p.1 == f)

/-- Modelled from the spec: `fileService.get(path)` (§6.1); the source uses
`files.get(targetFile) || ''`, so absent files read as the default. -/
def get? {α : Type} (s : StoreOf α) (f : String) : Option α :=
  s.lookup f

/-- The variant of `get` with the empty-string default used by the source. -/
def get (s : Store) (f : String) : String :=
  (s.lookup f).getD ""

/-- Modelled from the spec: `fileService.set(path, text)` (§6.1) replaces the
entry in place when present, otherwise appends it. -/
def set {α : Type} (s : StoreOf α) (f : String) (c : α) : StoreOf α :=
  if s.any (fun p => p.1 == f) then
    s.map (fun p => if p.1 == f then (f, c) else p)
  else
    s ++ [(f, c)]

/-- Modelled from the spec: `fileService.delete(path)` (§6.1). -/
def delete {α : Type} (s : StoreOf α) (f : String) : StoreOf α :=
  s.filter (fun p => !(p.1 == f))

end FileService

/-! ## Dependency graph -/

/-- Modelled from the spec: a Vertex (§3) with `to` = imported module paths,
`from` = importing module paths, `depth` = minimum distance from an entrypoint
(`none` standing for ∞ / unreachable), and the whole-reexport specifier index. -/
structure Vertex where
  to_ : List String
  from_ : List String
  depth : Option Nat
  wholeReexportSpecifier : List (String × String)
deriving Repr, DecidableEq

abbrev Graph := List (String × Vertex)

/-- Modelled from the spec: `deleteVertex` of the Dependency Graph (§4.1) —
removes the vertex and prunes the path from every remaining vertex's
`to`/`from` sets. -/
def deleteVertex (g : Graph) (f : String) : Graph :=
  (g.filter (fun p => !(p.1 == f))).map fun p =>
    (p.1, { p.2 with
      to_ := p.2.to_.filter (fun x => !(x == f)),
      from_ := p.2.from_.filter (fun x => !(x == f)) })

/-! ## Analysis results and decision application -/

/-- A removed-export log entry (the `logs` records of `processFile`). -/
structure RemovedExport where
  fileName : String
  position : Nat
  code : String
deriving Repr, DecidableEq

/-- The result returned by a task's analysis (`processFile`): delete the
module, or edit it to `content` having removed `removedExports`. -/
inductive AnalysisResult where
  | delete
  | edit (content : String) (removedExports : List RemovedExport)
deriving Repr, DecidableEq

/-- The mutable state owned by the orchestrator: module store, dependency
graph, and the deferred whole-reexport cleanup list. -/
structure RunState where
  store : Store
  graph : Graph
  wholeReexportsToBeDeleted : List (String × String)
deriving Repr, DecidableEq

/-- Decision application for a completed task (the `switch (result.operation)`
of `removeUnusedExport`): on `delete`, an entrypoint is kept untouched;
otherwise the module is removed from the store, whole-reexport entries of its
importers are queued for deferred cleanup, the vertex is deleted, and (when
`recursive`) the non-entrypoint members of `vertex.to` are enqueued.  On
`edit`, the new content is written and, when at least one export was removed
and `recursive` holds, the non-entrypoint members of `vertex.to` are enqueued.
Returns the new state and the list of enqueued module paths. -/
def applyResult (entrypoints : List String) (recursive : Bool) (st : RunState)
    (vertex : Option Vertex) (file : String) :
    AnalysisResult → RunState × List String
  | .delete =>
    if entrypoints.contains file then (st, [])
    else
      let store' := FileService.delete st.store file
      match vertex with
      | none => ({ st with store := store' }, [])
      | some v =>
        let reexports := v.from_.filterMap fun w =>
          match st.graph.lookup w with
          | none => none
          | some target =>
            (target.wholeReexportSpecifier.lookup file).map fun sp => (w, sp)
        let st' : RunState :=
          { store := store',
            graph := deleteVertex st.graph file,
            wholeReexportsToBeDeleted := st.wholeReexportsToBeDeleted ++ reexports }
        (st', if recursive then v.to_.filter (fun x => !entrypoints.contains x) else [])
  | .edit content removedExports =>
    let st' := { st with store := FileService.set st.store file content }
    match vertex with
    | some v =>
      if removedExports.length > 0 && recursive then
        (st', v.to_.filter (fun x => !entrypoints.contains x))
      else (st', [])
    | none => (st', [])

/-- One task execution, as performed by the `TaskManager` callback: the
existence pre-check at entry, the vertex capture, the abort check after the
analyzer returns, then decision application.  `stPre` is the state at
entry/analyzer invocation and `stPost` the state when the result is applied;
the abort signal of the `TaskManager` (not part of the translated source) is
modelled from the spec (§4.2): a task is aborted exactly when its module no
longer exists in the store. -/
def taskStep (entrypoints : List String) (recursive : Bool)
    (analyze : String → RunState → AnalysisResult)
    (stPre stPost : RunState) (file : String) : RunState × List String :=
  if !(FileService.exists' stPre.store file) then (stPost, [])
  else
    let vertex := stPre.graph.lookup file
    if !(FileService.exists' stPost.store file) then (stPost, [])
    else applyResult entrypoints recursive stPost vertex file (analyze file stPre)

/-- Modelled from the spec: the Task Scheduler (§4.2, `TaskManager`, not part
of the translated source) run sequentially (worker count 1): a FIFO queue of
module paths, each popped task executed by `taskStep` against the current
state, its enqueued consequences appended.  `fuel` bounds the recursion; the
result carries the final state, the number of task executions, and whether
the queue emptied (fixpoint reached) within the fuel. -/
def runLoop (entrypoints : List String) (recursive : Bool)
    (analyze : String → RunState → AnalysisResult) :
    Nat → RunState → List String → RunState × Nat × Bool
  | 0, st, queue => (st, 0, queue.isEmpty)
  | _ + 1, st, [] => (st, 0, true)
  | fuel + 1, st, file :: queue =>
    let step := taskStep entrypoints recursive analyze st st file
    let rest := runLoop entrypoints recursive analyze fuel step.1 (queue ++ step.2)
    (rest.1, rest.2.1 + 1, rest.2.2)

/-! ## Seeding -/

/-- The literal skip marker recognized verbatim in source text. -/
def IGNORE_COMMENT : String := "ts-remove-unused-skip"

/-- Whether `p` occurs at the head of `l`. -/
def matchHead : List Char → List Char → Bool
  | [], _ => true
  | _ :: _, [] => false
  | a :: p, b :: l => a == b && matchHead p l

/-- Whether `p` occurs contiguously somewhere in `l`. -/
def containsChars (p : List Char) : List Char → Bool
  | [] => p.isEmpty
  | b :: l => matchHead p (b :: l) || containsChars p l

/-- The check `String.prototype.includes`: `pat` occurs as a contiguous substring. -/
def includes (s pat : String) : Bool :=
  containsChars pat.toList s.toList

/-- The accumulator of the seeding loop of `removeUnusedExport`: the evolving
store, the `filesOutsideOfGraphHasSkipComment` flag, and the `initialFiles`
list of `(file, depth)` seeds (depth `-1` is the unreachable sentinel). -/
structure SeedAcc where
  store : Store
  filesOutsideOfGraphHasSkipComment : Bool
  initialFiles : List (String × Int)
deriving Repr, DecidableEq

/-- The condition `vertex && vertex.data.depth < Infinity` of the seeding
loop: `some d` when the module has a vertex with finite depth `d`, `none`
otherwise. -/
def reachableDepth (g : Graph) (file : String) : Option Nat :=
  match g.lookup file with
  | some v => v.depth
  | none => none

/-- One iteration of the seeding loop (`for (const file of
fileService.getFileNames())`): entrypoints are skipped; reachable modules are
seeded with their depth; otherwise the skip-marker flag is updated from the
file's text, the module is deleted when whole-codebase deletion is enabled and
no marker has been observed so far, and otherwise seeded with depth `-1`. -/
def seedStep (entrypoints : List String) (deleteUnusedFile : Bool) (g : Graph)
    (acc : SeedAcc) (file : String) : SeedAcc :=
  if entrypoints.contains file then acc
  else
    match reachableDepth g file with
    | some d =>
      { acc with initialFiles := acc.initialFiles ++ [(file, (d : Int))] }
    | none =>
      if deleteUnusedFile
          && !(acc.filesOutsideOfGraphHasSkipComment
              || includes (FileService.get acc.store file) IGNORE_COMMENT)
          && !entrypoints.contains file then
        { acc with
          store := FileService.delete acc.store file,
          filesOutsideOfGraphHasSkipComment :=
            acc.filesOutsideOfGraphHasSkipComment
              || includes (FileService.get acc.store file) IGNORE_COMMENT }
      else
        { acc with
          filesOutsideOfGraphHasSkipComment :=
            acc.filesOutsideOfGraphHasSkipComment
              || includes (FileService.get acc.store file) IGNORE_COMMENT,
          initialFiles := acc.initialFiles ++ [(file, (-1 : Int))] }

/-- The full seeding pass: fold `seedStep` over the file names enumerated once
from the initial store (deletions during the loop do not affect the
enumeration, since `getFileNames()` is evaluated before the loop). -/
def seedRun (entrypoints : List String) (deleteUnusedFile : Bool) (g : Graph)
    (store : Store) : SeedAcc :=
  (store.map (fun p => p.1)).foldl (seedStep entrypoints deleteUnusedFile g)
    ⟨store, false, []⟩

/-! ## Deferred whole-reexport cleanup -/

/-- Modelled from the spec: a top-level statement of a module's source text as
seen by `removeWholeExportSpecifier`, which only inspects whether a statement
is an export declaration, whether its module specifier is a string literal
(`moduleSpecifier = some s`; `none` covers both an absent specifier and a
non-string-literal one), and whether it has an export clause.  A module's text
is embedded as its list of top-level statements (what
`ts.createSourceFile` + `forEachChild` enumerate). -/
structure Stmt where
  isExportDeclaration : Bool
  moduleSpecifier : Option String
  hasExportClause : Bool
deriving Repr, DecidableEq

abbrev StmtStore := StoreOf (List Stmt)

/-- The match condition of the visitor in `removeWholeExportSpecifier`:
an export declaration with a string-literal module specifier equal to
`specifier` and no export clause (a bare `export * from '...'`). -/
def matchesWholeReexport (s : Stmt) (specifier : String) : Bool :=
  s.isExportDeclaration && s.moduleSpecifier == some specifier && !s.hasExportClause

/-- The function `removeWholeExportSpecifier`: scan the top-level statements, collect only
the first one matching `specifier` (the visitor stops once `result` is
non-empty), return `none` when there is no match, otherwise the content with
that single statement removed. -/
def removeWholeExportSpecifier (stmts : List Stmt) (specifier : String) :
    Option (List Stmt) :=
  match stmts with
  | [] => none
  | s :: rest =>
    if matchesWholeReexport s specifier then some rest
    else (removeWholeExportSpecifier rest specifier).map (fun l => s :: l)

/-- One entry of the deferred cleanup loop over `wholeReexportsToBeDeleted`:
skip when the importer no longer exists in the store; skip when
`removeWholeExportSpecifier` finds no matching statement; otherwise write the
content with the statement removed. -/
def cleanupStep (store : StmtStore) (item : String × String) : StmtStore :=
  if !(FileService.exists' store item.1) then store
  else
    let content := (FileService.get? store item.1).getD []
    match removeWholeExportSpecifier content item.2 with
    | none => store
    | some newContent => FileService.set store item.1 newContent

/-- The deferred cleanup pass run after the scheduler reaches fixpoint. -/
def cleanupRun (store : StmtStore) (items : List (String × String)) : StmtStore :=
  items.foldl cleanupStep store

/-! ## Per-file analysis (`processFile`) -/

/-- A span of source text (`ts.TextSpan`). -/
structure TextSpan where
  start : Nat
  length : Nat
deriving Repr, DecidableEq

/-- A text change (`ts.TextChange`). -/
structure TextChange where
  newText : String
  span : TextSpan
deriving Repr, DecidableEq

/-- The inner `type` tag of an export declaration item. The `unknown` variant
stands for data outside the analyzer contract reaching the inner decision
switch (`item satisfies never`). -/
inductive ExportDeclarationType where
  | named (name : List String) ( skip : Bool) (code : String)
  | namespaceReexport
  | whole
  | unknown (tag : Nat)
deriving Repr, DecidableEq

/-- An `ExportItem` as consumed by the decision switch of `processFile`: a
tagged variant over the recognized `ts.SyntaxKind`s, carrying symbol names,
the change span (plus the statement's code text where the source needs it),
the `skip` flag, and the log position `start`.  The `unknown` variant stands
for data outside the analyzer contract reaching the outer decision switch.
Items are produced by `parseFile` (not part of the translated source) and are
passed to `processFile` as input, per the Analyzer Boundary contract (§6.3). -/
inductive ExportItem where
  | variableStatement (name : List String) ( skip : Bool) (span : TextSpan) (start : Nat)
  | functionDeclaration (name : String) ( skip : Bool) (code : String)
      (isUnnamedDefaultExport : Bool) (span : TextSpan) (start : Nat)
  | interfaceDeclaration (name : String) ( skip : Bool) (span : TextSpan) (start : Nat)
  | typeAliasDeclaration (name : String) ( skip : Bool) (span : TextSpan) (start : Nat)
  | exportAssignment ( skip : Bool) (span : TextSpan) (start : Nat)
  | exportDeclaration (type_ : ExportDeclarationType) (span : TextSpan) (start : Nat)
  | classDeclaration (name : String) ( skip : Bool) (span : TextSpan) (start : Nat)
  | unknown (tag : Nat)
deriving Repr, DecidableEq

/-- The check `'skip' in v && v.skip` of the delete guard: true exactly for
the variants that carry a `skip` field with the flag set. -/
def hasSkipTrue : ExportItem → Bool
  | .variableStatement _ sk _ _ => sk
  | .functionDeclaration _ sk _ _ _ _ => sk
  | .interfaceDeclaration _ sk _ _ => sk
  | .typeAliasDeclaration _ sk _ _ => sk
  | .exportAssignment sk _ _ => sk
  | .exportDeclaration t _ _ =>
    match t with
    | .named _ sk _ => sk
    | _ => false
  | .classDeclaration _ sk _ _ => sk
  | .unknown _ => false

/-- The text transformations used by `processFile` that wrap the TypeScript
AST printer and language service (`stripExportKeyword`,
`updateExportDeclaration`, `applyTextChanges`, and the `applyCodeFix` loop).
They are external to the orchestration core being modelled (spec §1 puts
textual edit computation out of scope), so the embedding abstracts them as
arbitrary text functions. -/
structure TextOps where
  stripExportKeyword : String → String
  updateExportDeclaration : String → List String → String
  applyTextChanges : String → List TextChange → String
  codeFix : String → String

/-- The decision switch body of `processFile` for a single export item:
returns the text changes and removed-export log entries this item
contributes, or the `unexpected` error for a variant outside the recognized
set. -/
def decideItem (ops : TextOps) (targetFile : String) (usage : List String) :
    ExportItem → Except String (List TextChange × List RemovedExport)
  | .variableStatement name sk span start =>
    if sk || name.all (fun it => usage.contains it) then .ok ([], [])
    else
      .ok ([{ newText := "", span := span }],
           [{ fileName := targetFile, position := start,
              code := String.intercalate ", " name }])
  | .functionDeclaration name sk code isUnnamed span start =>
    if sk || usage.contains name then .ok ([], [])
    else
      .ok ([{ newText := if isUnnamed then "" else ops.stripExportKeyword code,
              span := span }],
           [{ fileName := targetFile, position := start, code := name }])
  | .interfaceDeclaration name sk span start =>
    if sk || usage.contains name then .ok ([], [])
    else
      .ok ([{ newText := "", span := span }],
           [{ fileName := targetFile, position := start, code := name }])
  | .typeAliasDeclaration name sk span start =>
    if sk || usage.contains name then .ok ([], [])
    else
      .ok ([{ newText := "", span := span }],
           [{ fileName := targetFile, position := start, code := name }])
  | .exportAssignment sk span start =>
    if sk || usage.contains "default" then .ok ([], [])
    else
      .ok ([{ newText := "", span := span }],
           [{ fileName := targetFile, position := start, code := "default" }])
  | .exportDeclaration t span start =>
    match t with
    | .named name sk code =>
      if sk || name.all (fun it => usage.contains it) then .ok ([], [])
      else
        let unused := name.filter (fun it => !usage.contains it)
        let count := name.length - unused.length
        .ok ([{ newText := if count > 0 then ops.updateExportDeclaration code unused
                           else "",
                span := span }],
             unused.map (fun it =>
               { fileName := targetFile, position := start, code := it }))
    | .namespaceReexport => .ok ([], [])
    | .whole => .ok ([], [])
    | .unknown _ => .error "unexpected export declaration type"
  | .classDeclaration name sk span start =>
    if sk || usage.contains name then .ok ([], [])
    else
      .ok ([{ newText := "", span := span }],
           [{ fileName := targetFile, position := start, code := name }])
  | .unknown _ => .error "unexpected export item kind"

/-- The `exports.forEach` loop of `processFile`: the changes and logs are the
in-order concatenation of every item's contribution; the first `unexpected`
throw aborts the whole computation. -/
def computeChangesLogs (ops : TextOps) (targetFile : String) (usage : List String) :
    List ExportItem → Except String (List TextChange × List RemovedExport)
  | [] => .ok ([], [])
  | item :: rest =>
    match decideItem ops targetFile usage item with
    | .error e => .error e
    | .ok (c, l) =>
      match computeChangesLogs ops targetFile usage rest with
      | .error e => .error e
      | .ok (cs, ls) => .ok (c ++ cs, l ++ ls)

/-- The per-file operation decided by `processFile`. -/
inductive FileResult where
  | delete
  | edit (content : String) (removedExports : List RemovedExport)
deriving Repr, DecidableEq

/-- The function `processFile`: the wildcard early return (usage contains `*` → return the
current text unchanged with no removed exports), the whole-file delete
decision (no usage, deletion enabled, and no export carries the skip flag),
and otherwise the decision switch followed by text-change application (and
the code-fix passes when enabled).  `usage` and `exports` are the results of
`findFileUsage` and `parseFile` (not part of the translated source), passed
as inputs per the Analyzer Boundary contract (§6.3); the usage set is
embedded as a list. -/
def processFile (ops : TextOps) (targetFile : String)
    (files : List (String × String)) (usage : List String)
    (exports : List ExportItem) (deleteUnusedFile enableCodeFix : Bool) :
    Except String FileResult :=
  if usage.contains "*" then
    .ok (.edit (FileService.get files targetFile) [])
  else if usage.isEmpty && deleteUnusedFile && !(exports.any hasSkipTrue) then
    .ok .delete
  else
    match computeChangesLogs ops targetFile usage exports with
    | .error e => .error e
    | .ok (changes, logs) =>
      if changes.length == 0 then
        .ok (.edit (FileService.get files targetFile) logs)
      else
        let content := ops.applyTextChanges (FileService.get files targetFile) changes
        let content := if enableCodeFix && changes.length > 0 then ops.codeFix content
                       else content
        .ok (.edit content logs)

/-- Returns `true` exactly on `.error`. -/
def isError {ε α : Type} : Except ε α → Bool
  | .error _ => true
  | .ok _ => false

/-! ## Helper lemmas about the store operations -/

theorem lookup_delete_of_ne {α : Type} (s : StoreOf α) (f e : String) (h : e ≠ f) :
    (FileService.delete s f).lookup e = s.lookup e := by
  induction s with
  | nil => rfl
  | cons p t ih =>
    obtain ⟨k, v⟩ := p
    by_cases hk : k = f
    · subst hk
      have he : (e == k) = false := by simp [h]
      simp [FileService.delete, List.filter, List.lookup, he] at *
      exact ih
    · have hne : (k == f) = false := by simp [hk]
      simp only [FileService.delete, List.filter, hne, Bool.not_false] at *
      by_cases hek : e = k
      · subst hek; simp [List.lookup]
      · have : (e == k) = false := by simp [hek]
        simp [List.lookup, this] at *
        exact ih

theorem lookup_eq_none_of_not_exists {α : Type} (s : StoreOf α) (f : String)
    (h : FileService.exists' s f = false) : s.lookup f = none := by
  induction s with
  | nil => rfl
  | cons p t ih =>
    obtain ⟨k, v⟩ := p
    simp only [FileService.exists', List.any_cons, Bool.or_eq_false_iff] at h
    obtain ⟨h1, h2⟩ := h
    have hkf : k ≠ f := by simpa using h1
    have hfk : (f == k) = false := by simp [Ne.symm hkf]
    simp only [List.lookup, hfk]
    exact ih h2

theorem length_set_of_exists {α : Type} (s : StoreOf α) (f : String) (c : α)
    (h : FileService.exists' s f = true) :
    (FileService.set s f c).length = s.length := by
  unfold FileService.set FileService.exists' at *
  simp [h]

theorem length_delete_lt {α : Type} (s : StoreOf α) (f : String)
    (h : FileService.exists' s f = true) :
    (FileService.delete s f).length < s.length := by
  induction s with
  | nil => simp [FileService.exists'] at h
  | cons p t ih =>
    obtain ⟨k, v⟩ := p
    cases hk : (k == f) with
    | true =>
      simp only [FileService.delete, List.filter, hk, Bool.not_true]
      exact Nat.lt_succ_of_le (List.length_filter_le _ t)
    | false =>
      have ht : FileService.exists' t f = true := by
        simp only [FileService.exists', List.any_cons, hk, Bool.false_or] at h
        exact h
      simp only [FileService.delete, List.filter, hk, Bool.not_false, List.length_cons]
      exact Nat.succ_lt_succ (ih ht)

theorem mem_of_lookup_eq_some {α : Type} (s : List (String × α)) (f : String) (v : α)
    (h : s.lookup f = some v) : (f, v) ∈ s := by
  induction s with
  | nil => simp [List.lookup] at h
  | cons p t ih =>
    obtain ⟨k, w⟩ := p
    cases hk : (f == k) with
    | true =>
      simp only [List.lookup, hk] at h
      cases h
      simp [eq_of_beq hk]
    | false =>
      simp only [List.lookup, hk] at h
      exact List.mem_cons_of_mem _ (ih h)

theorem deleteVertex_to_length {g : Graph} {K : Nat} {f : String}
    (h : ∀ p ∈ g, p.2.to_.length ≤ K) :
    ∀ p ∈ deleteVertex g f, p.2.to_.length ≤ K := by
  intro p hp
  unfold deleteVertex at hp
  obtain ⟨q, hq, rfl⟩ := List.mem_map.mp hp
  have hqg : q ∈ g := List.mem_of_mem_filter hq
  exact le_trans (List.length_filter_le _ _) (h q hqg)

/-! ## Helper lemmas about the seeding loop -/

theorem seedStep_flag_true (ep : List String) (dUF : Bool) (g : Graph)
    (acc : SeedAcc) (f : String) (h : acc.filesOutsideOfGraphHasSkipComment = true) :
    (seedStep ep dUF g acc f).store = acc.store
    ∧ (seedStep ep dUF g acc f).filesOutsideOfGraphHasSkipComment = true := by
  unfold seedStep
  split
  · exact ⟨rfl, h⟩
  · split
    · exact ⟨rfl, h⟩
    · rw [h]
      simp

theorem seedFold_flag_true (ep : List String) (dUF : Bool) (g : Graph)
    (names : List String) :
    ∀ acc : SeedAcc, acc.filesOutsideOfGraphHasSkipComment = true →
      (names.foldl (seedStep ep dUF g) acc).store = acc.store := by
  induction names with
  | nil => intro acc _; rfl
  | cons a t ih =>
    intro acc h
    have hs := seedStep_flag_true ep dUF g acc a h
    simp only [List.foldl_cons]
    rw [ih _ hs.2, hs.1]

theorem seedStep_store_cases (ep : List String) (dUF : Bool) (g : Graph)
    (acc : SeedAcc) (f : String) :
    (seedStep ep dUF g acc f).store = acc.store
    ∨ (seedStep ep dUF g acc f).store = FileService.delete acc.store f := by
  unfold seedStep
  split
  · exact Or.inl rfl
  · split
    · exact Or.inl rfl
    · split
      · exact Or.inr rfl
      · exact Or.inl rfl

theorem seedFold_lookup_notin (ep : List String) (dUF : Bool) (g : Graph)
    (names : List String) :
    ∀ (acc : SeedAcc) (e : String), e ∉ names →
      (names.foldl (seedStep ep dUF g) acc).store.lookup e = acc.store.lookup e := by
  induction names with
  | nil => intro acc e _; rfl
  | cons a t ih =>
    intro acc e he
    have hea : e ≠ a := fun h => he (h ▸ List.mem_cons_self a t)
    have het : e ∉ t := fun h => he (List.mem_cons_of_mem a h)
    simp only [List.foldl_cons]
    rw [ih _ e het]
    rcases seedStep_store_cases ep dUF g acc a with h | h
    · rw [h]
    · rw [h, lookup_delete_of_ne _ _ _ hea]

theorem seedStep_preserves_entrypoint (ep : List String) (dUF : Bool) (g : Graph)
    (e : String) (he : e ∈ ep) (acc : SeedAcc) (f : String) :
    ((seedStep ep dUF g acc f).store.lookup e = acc.store.lookup e)
    ∧ (e ∈ (seedStep ep dUF g acc f).initialFiles.map (fun p => p.1)
        → e ∈ acc.initialFiles.map (fun p => p.1)) := by
  unfold seedStep
  split
  · exact ⟨rfl, id⟩
  next hf =>
    have hfe : e ≠ f := by
      intro h
      subst h
      exact hf (by simpa using he)
    split
    · refine ⟨rfl, ?_⟩
      intro hm
      simp at hm
      rcases hm with hm | hm
      · simpa using hm
      · exact absurd hm hfe
    · split
      · exact ⟨lookup_delete_of_ne _ _ _ hfe, id⟩
      · refine ⟨rfl, ?_⟩
        intro hm
        simp at hm
        rcases hm with hm | hm
        · simpa using hm
        · exact absurd hm hfe

theorem seedFold_preserves_entrypoint (ep : List String) (dUF : Bool) (g : Graph)
    (e : String) (he : e ∈ ep) (names : List String) :
    ∀ acc : SeedAcc,
      ((names.foldl (seedStep ep dUF g) acc).store.lookup e = acc.store.lookup e)
      ∧ (e ∈ ((names.foldl (seedStep ep dUF g) acc).initialFiles.map (fun p => p.1))
          → e ∈ acc.initialFiles.map (fun p => p.1)) := by
  induction names with
  | nil => intro acc; exact ⟨rfl, id⟩
  | cons a t ih =>
    intro acc
    have h1 := seedStep_preserves_entrypoint ep dUF g e he acc a
    have h2 := ih (seedStep ep dUF g acc a)
    exact ⟨h2.1.trans h1.1, fun hm => h1.2 (h2.2 hm)⟩

/-! ## Claim theorems -/

/-- C1: No entrypoint module is ever deleted from the Module Store: during
seeding every entrypoint is skipped (its store entry is untouched and it is
never put on the initial task list), and when a completed task's result is
`delete` for a path contained in the entrypoint list, the store and graph
are left unchanged and nothing is enqueued — for every run configuration
and every analyzer verdict. -/
theorem entrypoint_immunity
    (entrypoints : List String) (deleteUnusedFile recursive : Bool)
    (g : Graph) (store : Store) (st : RunState) (vertex : Option Vertex)
    (file : String) :
    (∀ e ∈ entrypoints,
        (seedRun entrypoints deleteUnusedFile g store).store.lookup e
          = store.lookup e
        ∧ e ∉ (seedRun entrypoints deleteUnusedFile g store).initialFiles.map
            (fun p => p.1))
    ∧ (entrypoints.contains file = true →
        applyResult entrypoints recursive st vertex file .delete = (st, [])) := by
  constructor
  · intro e he
    have h := seedFold_preserves_entrypoint entrypoints deleteUnusedFile g e he
      (store.map (fun p => p.1)) ⟨store, false, []⟩
    refine ⟨h.1, fun hm => ?_⟩
    have := h.2 hm
    simp at this
  · intro h
    have h' : file ∈ entrypoints := by simpa using h
    simp [applyResult, h']

/-- Witness for C1 at a concrete input. -/
theorem entrypoint_immunity_witness :
    ("main" ∈ ["main"])
    ∧ (seedRun ["main"] true [] [("main", "m"), ("x", "y")]).store.lookup "main"
        = some "m"
    ∧ applyResult ["main"] true ⟨[("main", "m")], [], []⟩ none "main" .delete
        = (⟨[("main", "m")], [], []⟩, []) := by
  have h := entrypoint_immunity ["main"] true true [] [("main", "m"), ("x", "y")]
    ⟨[("main", "m")], [], []⟩ none "main"
  refine ⟨by decide, ?_, ?_⟩
  · rw [(h.1 "main" (by decide)).1]
    rfl
  · exact h.2 (by decide)

/-- C5: before invoking the analyzer and again immediately after it returns,
the task checks whether its module still exists in the Module Store; if it
does not exist at either point, the task performs no store or graph mutation
and enqueues nothing.  (The second check is the `TaskManager` abort signal,
modelled from the spec (§4.2) as the module no longer existing when the
result would be applied.) -/
theorem task_existence_checks
    (entrypoints : List String) (recursive : Bool)
    (analyze : String → RunState → AnalysisResult)
    (stPre stPost : RunState) (file : String)
    (h : FileService.exists' stPre.store file = false
        ∨ FileService.exists' stPost.store file = false) :
    taskStep entrypoints recursive analyze stPre stPost file = (stPost, []) := by
  unfold taskStep
  rcases h with h | h
  · simp [h]
  · by_cases h2 : FileService.exists' stPre.store file = true
    · simp [h2, h]
    · simp [h2]

/-- Witness for C5 at a concrete input. -/
theorem task_existence_checks_witness :
    (FileService.exists' ((⟨[], [], []⟩ : RunState)).store "a" = false
      ∨ FileService.exists' ((⟨[("a", "x")], [], []⟩ : RunState)).store "a" = false)
    ∧ taskStep [] true (fun _ _ => .delete) ⟨[], [], []⟩ ⟨[("a", "x")], [], []⟩ "a"
        = (⟨[("a", "x")], [], []⟩, []) := by
  refine ⟨Or.inl (by decide), ?_⟩
  exact task_existence_checks [] true (fun _ _ => .delete) ⟨[], [], []⟩
    ⟨[("a", "x")], [], []⟩ "a" (Or.inl (by decide))

/-- C3 counterexample: for a completed task whose `edit` result removed one
export, with recursive propagation on, the enqueued set is the vertex's `to`
set (the modules the edited module imports) minus the entrypoints — here
`["B"]` — and not its `from` set (its importers) minus the entrypoints —
here `["C"]` — contradicting the claim. -/
theorem edit_cascade_not_importers :
    (applyResult [] true
        ⟨[("M", "t"), ("B", "b"), ("C", "c")], [("M", ⟨["B"], ["C"], some 1, []⟩)], []⟩
        (some ⟨["B"], ["C"], some 1, []⟩) "M"
        (.edit "t2" [⟨"M", 0, "x"⟩])).2 = ["B"]
    ∧ (applyResult [] true
        ⟨[("M", "t"), ("B", "b"), ("C", "c")], [("M", ⟨["B"], ["C"], some 1, []⟩)], []⟩
        (some ⟨["B"], ["C"], some 1, []⟩) "M"
        (.edit "t2" [⟨"M", 0, "x"⟩])).2
      ≠ (Vertex.from_ ⟨["B"], ["C"], some 1, []⟩).filter
          (fun x => !(([] : List String).contains x)) := by
  decide

/-- C3 (amended): for every completed task whose result is an `edit` that
removed at least one export, when recursive propagation is enabled and the
module has a vertex, the set of modules enqueued as a consequence is exactly
the vertex's `to` set — the modules the edited module imports — minus the
entrypoints (not its `from` set of importers). -/
theorem edit_cascade_enqueues_to_set
    (entrypoints : List String) (st : RunState) (v : Vertex) (file : String)
    (content : String) (removedExports : List RemovedExport)
    (h : removedExports ≠ []) :
    (applyResult entrypoints true st (some v) file
        (.edit content removedExports)).2
      = v.to_.filter (fun x => !entrypoints.contains x) := by
  have hlen : 0 < removedExports.length := List.length_pos.mpr h
  simp [applyResult, hlen]

/-- Witness for C3's amended theorem at a concrete input. -/
theorem edit_cascade_enqueues_to_set_witness :
    ([(⟨"M", 0, "x"⟩ : RemovedExport)] ≠ [])
    ∧ (applyResult [] true ⟨[("M", "t")], [], []⟩
        (some ⟨["B"], ["C"], some 1, []⟩) "M"
        (.edit "t2" [⟨"M", 0, "x"⟩])).2 = ["B"] := by
  refine ⟨by decide, ?_⟩
  rw [edit_cascade_enqueues_to_set [] ⟨[("M", "t")], [], []⟩
    ⟨["B"], ["C"], some 1, []⟩ "M" "t2" [⟨"M", 0, "x"⟩] (by decide)]
  decide

/-- C7: for every module whose computed usage set contains the wildcard
`*`, `processFile` returns an `edit` whose content equals the module's
current text and whose removed-export list is empty, so the module is left
unmodified and never deleted. -/
theorem wildcard_leaves_unmodified
    (ops : TextOps) (targetFile : String) (files : List (String × String))
    (usage : List String) (exports : List ExportItem)
    (deleteUnusedFile enableCodeFix : Bool)
    (h : usage.contains "*" = true) :
    processFile ops targetFile files usage exports deleteUnusedFile enableCodeFix
      = .ok (.edit (FileService.get files targetFile) []) := by
  have h' : "*" ∈ usage := by simpa using h
  simp [processFile, h']

/-- Witness for C7 at a concrete input. -/
theorem wildcard_leaves_unmodified_witness :
    ((["*"] : List String).contains "*" = true)
    ∧ processFile ⟨id, fun c _ => c, fun t _ => t, id⟩ "f" [("f", "text")] ["*"]
        [.unknown 0] true true = .ok (.edit "text" []) := by
  refine ⟨by decide, ?_⟩
  rw [wildcard_leaves_unmodified ⟨id, fun c _ => c, fun t _ => t, id⟩ "f"
    [("f", "text")] ["*"] [.unknown 0] true true (by decide)]
  rfl

/-- C6: skip is respected by `processFile`: an export item whose skip flag is
true contributes no text change and no removed-export log entry to the
decision switch, and when any export item of the module carries `skip = true`,
`processFile` never returns the whole-file `delete` operation, even when
every usage fact is unused. -/
theorem skip_respected :
    (∀ (ops : TextOps) (targetFile : String) (usage : List String)
        (item : ExportItem),
        hasSkipTrue item = true →
        decideItem ops targetFile usage item = .ok ([], []))
    ∧ (∀ (ops : TextOps) (targetFile : String) (files : List (String × String))
        (usage : List String) (exports : List ExportItem)
        (deleteUnusedFile enableCodeFix : Bool),
        exports.any hasSkipTrue = true →
        processFile ops targetFile files usage exports deleteUnusedFile
          enableCodeFix ≠ .ok .delete) := by
  constructor
  · intro ops targetFile usage item h
    cases item with
    | variableStatement name sk span start =>
      simp only [hasSkipTrue] at h
      simp [decideItem, h]
    | functionDeclaration name sk code isUnnamed span start =>
      simp only [hasSkipTrue] at h
      simp [decideItem, h]
    | interfaceDeclaration name sk span start =>
      simp only [hasSkipTrue] at h
      simp [decideItem, h]
    | typeAliasDeclaration name sk span start =>
      simp only [hasSkipTrue] at h
      simp [decideItem, h]
    | exportAssignment sk span start =>
      simp only [hasSkipTrue] at h
      simp [decideItem, h]
    | exportDeclaration t span start =>
      cases t with
      | named name sk code =>
        simp only [hasSkipTrue] at h
        simp [decideItem, h]
      | namespaceReexport => simp [hasSkipTrue] at h
      | whole => simp [hasSkipTrue] at h
      | unknown tag => simp [hasSkipTrue] at h
    | classDeclaration name sk span start =>
      simp only [hasSkipTrue] at h
      simp [decideItem, h]
    | unknown tag => simp [hasSkipTrue] at h
  · intro ops targetFile files usage exports dUF eCF hany hcon
    unfold processFile at hcon
    by_cases h1 : usage.contains "*" = true
    · rw [if_pos h1] at hcon
      exact absurd hcon (by simp)
    · rw [if_neg h1] at hcon
      rw [if_neg (by simp [hany])] at hcon
      rcases hcl : computeChangesLogs ops targetFile usage exports with e | ⟨c, l⟩
      · rw [hcl] at hcon
        exact absurd hcon (by simp)
      · rw [hcl] at hcon
        split at hcon
        · simp at hcon
        · split at hcon <;> simp at hcon

/-- Witness for C6 at a concrete input. -/
theorem skip_respected_witness :
    (hasSkipTrue (.classDeclaration "A" true ⟨0, 1⟩ 0) = true
      ∧ decideItem ⟨id, fun c _ => c, fun t _ => t, id⟩ "f" []
          (.classDeclaration "A" true ⟨0, 1⟩ 0) = .ok ([], []))
    ∧ (([ExportItem.classDeclaration "A" true ⟨0, 1⟩ 0].any hasSkipTrue = true)
      ∧ processFile ⟨id, fun c _ => c, fun t _ => t, id⟩ "f" [("f", "x")] []
          [.classDeclaration "A" true ⟨0, 1⟩ 0] true false ≠ .ok .delete) := by
  constructor
  · exact ⟨rfl, skip_respected.1 ⟨id, fun c _ => c, fun t _ => t, id⟩ "f" []
      (.classDeclaration "A" true ⟨0, 1⟩ 0) rfl⟩
  · exact ⟨rfl, skip_respected.2 ⟨id, fun c _ => c, fun t _ => t, id⟩ "f"
      [("f", "x")] [] [.classDeclaration "A" true ⟨0, 1⟩ 0] true false rfl⟩

/-- C9: an export item whose kind — or, for export declarations, whose type
tag — lies outside the closed set of recognized variants makes the decision
switch raise an error; the error propagates out of the `forEach` loop and out
of `processFile` (when neither early return applies), so an unrecognized
variant is never silently ignored. -/
theorem unrecognized_variant_errors :
    (∀ (ops : TextOps) (t : String) (u : List String) (tag : Nat)
        (span : TextSpan) (start : Nat),
        decideItem ops t u (.exportDeclaration (.unknown tag) span start)
          = .error "unexpected export declaration type")
    ∧ (∀ (ops : TextOps) (t : String) (u : List String) (tag : Nat),
        decideItem ops t u (.unknown tag) = .error "unexpected export item kind")
    ∧ (∀ (ops : TextOps) (t : String) (u : List String)
        (exports : List ExportItem) (item : ExportItem),
        item ∈ exports → isError (decideItem ops t u item) = true →
        isError (computeChangesLogs ops t u exports) = true)
    ∧ (∀ (ops : TextOps) (t : String) (files : List (String × String))
        (u : List String) (exports : List ExportItem) (dUF eCF : Bool),
        u.contains "*" = false →
        (u.isEmpty && dUF && !(exports.any hasSkipTrue)) = false →
        isError (computeChangesLogs ops t u exports) = true →
        isError (processFile ops t files u exports dUF eCF) = true) := by
  refine ⟨fun _ _ _ _ _ _ => rfl, fun _ _ _ _ => rfl, ?_, ?_⟩
  · intro ops t u exports
    induction exports with
    | nil =>
      intro item h
      simp at h
    | cons a rest ih =>
      intro item hmem herr
      rcases List.mem_cons.mp hmem with rfl | hmem'
      · rcases hd : decideItem ops t u item with e | ⟨c, l⟩
        · simp [computeChangesLogs, hd, isError]
        · rw [hd] at herr
          simp [isError] at herr
      · rcases hd : decideItem ops t u a with e | ⟨c, l⟩
        · simp [computeChangesLogs, hd, isError]
        · have hrest := ih item hmem' herr
          rcases hcl : computeChangesLogs ops t u rest with e2 | ⟨cs, ls⟩
          · simp [computeChangesLogs, hd, hcl, isError]
          · rw [hcl] at hrest
            simp [isError] at hrest
  · intro ops t files u exports dUF eCF h1 h2 herr
    unfold processFile
    have h1' : ¬(u.contains "*" = true) := by rw [h1]; simp
    have h2' : ¬((u.isEmpty && dUF && !(exports.any hasSkipTrue)) = true) := by
      rw [h2]; simp
    rw [if_neg h1', if_neg h2']
    rcases hcl : computeChangesLogs ops t u exports with e | ⟨c, l⟩
    · simp [isError]
    · rw [hcl] at herr
      simp [isError] at herr

/-- Witness for C9 at a concrete input. -/
theorem unrecognized_variant_errors_witness :
    decideItem ⟨id, fun c _ => c, fun t _ => t, id⟩ "f" [] (.unknown 7)
      = .error "unexpected export item kind"
    ∧ isError (computeChangesLogs ⟨id, fun c _ => c, fun t _ => t, id⟩ "f" []
        [.exportDeclaration .whole ⟨0, 1⟩ 0, .unknown 7]) = true
    ∧ isError (processFile ⟨id, fun c _ => c, fun t _ => t, id⟩ "f" [("f", "x")]
        ["used"] [.unknown 7] true false) = true := by
  refine ⟨unrecognized_variant_errors.2.1 _ "f" [] 7, ?_, ?_⟩
  · exact unrecognized_variant_errors.2.2.1 _ "f" []
      [.exportDeclaration .whole ⟨0, 1⟩ 0, .unknown 7] (.unknown 7)
      (by simp) rfl
  · exact unrecognized_variant_errors.2.2.2 _ "f" [("f", "x")] ["used"]
      [.unknown 7] true false rfl rfl rfl

/-! ## Helper lemmas for the deferred cleanup -/

theorem removeWhole_eq_none (stmts : List Stmt) (sp : String)
    (h : ∀ s ∈ stmts, matchesWholeReexport s sp = false) :
    removeWholeExportSpecifier stmts sp = none := by
  induction stmts with
  | nil => rfl
  | cons a t ih =>
    have ha := h a (List.mem_cons_self a t)
    simp [removeWholeExportSpecifier, ha,
      ih (fun s hs => h s (List.mem_cons_of_mem a hs))]

theorem removeWhole_first (sp : String) (m : Stmt) (l2 : List Stmt)
    (hm : matchesWholeReexport m sp = true) :
    ∀ l1 : List Stmt, (∀ s ∈ l1, matchesWholeReexport s sp = false) →
      removeWholeExportSpecifier (l1 ++ m :: l2) sp = some (l1 ++ l2) := by
  intro l1
  induction l1 with
  | nil =>
    intro _
    simp [removeWholeExportSpecifier, hm]
  | cons a t ih =>
    intro h1
    have ha := h1 a (List.mem_cons_self a t)
    simp [removeWholeExportSpecifier, ha,
      ih (fun s hs => h1 s (List.mem_cons_of_mem a hs))]

/-- C8: for every deferred cleanup entry `(importer, specifier)`: if the
importer no longer exists in the store, or its current text contains no bare
whole-reexport statement whose specifier equals the entry's, the entry is
skipped without mutating any file (the step is a total function, so no error
is raised); otherwise the store is updated with the matching statement
removed. -/
theorem deferred_cleanup_entry (store : StmtStore) (f sp : String) :
    (FileService.exists' store f = false → cleanupStep store (f, sp) = store)
    ∧ ((∀ s ∈ (FileService.get? store f).getD [],
          matchesWholeReexport s sp = false) →
        cleanupStep store (f, sp) = store)
    ∧ (∀ l, removeWholeExportSpecifier ((FileService.get? store f).getD []) sp
          = some l →
        cleanupStep store (f, sp) = FileService.set store f l) := by
  refine ⟨?_, ?_, ?_⟩
  · intro h
    simp [cleanupStep, h]
  · intro h
    by_cases hex : FileService.exists' store f = true
    · simp [cleanupStep, hex, removeWhole_eq_none _ _ h]
    · have hex' : FileService.exists' store f = false := by simpa using hex
      simp [cleanupStep, hex']
  · intro l h
    by_cases hex : FileService.exists' store f = true
    · simp [cleanupStep, hex, h]
    · exfalso
      have hex' : FileService.exists' store f = false := by simpa using hex
      have hn : FileService.get? store f = none :=
        lookup_eq_none_of_not_exists store f hex'
      rw [hn] at h
      simp [removeWholeExportSpecifier] at h

/-- Witness for C8 at a concrete input. -/
theorem deferred_cleanup_entry_witness :
    (FileService.exists' ([] : StmtStore) "a" = false
      ∧ cleanupStep ([] : StmtStore) ("a", "./c") = ([] : StmtStore))
    ∧ (removeWholeExportSpecifier
        ((FileService.get? [("a", [(⟨true, some "./c", false⟩ : Stmt)])] "a").getD [])
        "./c" = some []
      ∧ cleanupStep [("a", [(⟨true, some "./c", false⟩ : Stmt)])] ("a", "./c")
        = FileService.set [("a", [(⟨true, some "./c", false⟩ : Stmt)])] "a" []) := by
  constructor
  · exact ⟨rfl, (deferred_cleanup_entry [] "a" "./c").1 rfl⟩
  · exact ⟨rfl, (deferred_cleanup_entry [("a", [⟨true, some "./c", false⟩])]
      "a" "./c").2.2 [] rfl⟩

/-- C10: `removeWholeExportSpecifier` removes at most one statement per call:
for a text whose statements split as `l1 ++ m :: l2` where nothing in `l1`
matches and `m` matches the specifier, the result is exactly `l1 ++ l2` — so
every later duplicate (any further matching statement in `l2`) remains in
the returned content. -/
theorem removeWhole_removes_only_first (l1 l2 : List Stmt) (m : Stmt) (sp : String)
    (h1 : ∀ s ∈ l1, matchesWholeReexport s sp = false)
    (hm : matchesWholeReexport m sp = true) :
    removeWholeExportSpecifier (l1 ++ m :: l2) sp = some (l1 ++ l2)
    ∧ ∀ s ∈ l2, s ∈ l1 ++ l2 := by
  exact ⟨removeWhole_first sp m l2 hm l1 h1,
    fun s hs => List.mem_append_right l1 hs⟩

/-- C4 counterexample: the store enumerates `u1` (unreachable, no marker)
before `u2` (unreachable, carries the skip marker).  Although a module
outside the reachable graph carries the marker, the unreachable module `u1`
is still deleted during seeding — deletion-by-unreachability is only
disabled from the moment the marker is observed, so the claim's
order-independent immunity is false. -/
theorem seed_marker_not_order_independent :
    reachableDepth [("main", ⟨[], [], some 0, []⟩)] "u2" = none
    ∧ includes
        (FileService.get
          [("main", "m"), ("u1", "nothing"), ("u2", "x ts-remove-unused-skip y")]
          "u2")
        IGNORE_COMMENT = true
    ∧ (seedRun ["main"] true [("main", ⟨[], [], some 0, []⟩)]
        [("main", "m"), ("u1", "nothing"),
          ("u2", "x ts-remove-unused-skip y")]).store.lookup "u1" = none := by
  refine ⟨rfl, rfl, rfl⟩

theorem seedStep_marker (ep : List String) (dUF : Bool) (g : Graph)
    (acc : SeedAcc) (m : String)
    (hm_ep : ep.contains m = false)
    (hm_unreach : reachableDepth g m = none)
    (hm_marker : includes (FileService.get acc.store m) IGNORE_COMMENT = true) :
    (seedStep ep dUF g acc m).store = acc.store
    ∧ (seedStep ep dUF g acc m).filesOutsideOfGraphHasSkipComment = true := by
  unfold seedStep
  have hc : ¬(ep.contains m = true) := by rw [hm_ep]; simp
  rw [if_neg hc, hm_unreach, hm_marker]
  simp

/-- C4 (amended): the skip-marker immunity is order-dependent: once a module
outside the reachable graph carrying the marker is reached in the store's
enumeration order, the flag is set and no later-enumerated module is deleted
during seeding (the marker module itself included); modules enumerated
before the first marker may still have been deleted. -/
theorem seed_marker_disables_deletion_from_then_on
    (ep : List String) (dUF : Bool) (g : Graph) (store : Store)
    (l1 l2 : List String) (m : String)
    (hsplit : store.map (fun p => p.1) = l1 ++ m :: l2)
    (hnodup : (store.map (fun p => p.1)).Nodup)
    (hm_ep : ep.contains m = false)
    (hm_unreach : reachableDepth g m = none)
    (hm_marker : includes (FileService.get store m) IGNORE_COMMENT = true) :
    ∀ f ∈ m :: l2, (seedRun ep dUF g store).store.lookup f = store.lookup f := by
  intro f hf
  rw [hsplit] at hnodup
  rw [List.nodup_append] at hnodup
  obtain ⟨hnd1, hnd2, hdisj⟩ := hnodup
  have hmnotl1 : m ∉ l1 := fun hc => hdisj hc (List.mem_cons_self m l2)
  have hfnotl1 : f ∉ l1 := by
    intro hc
    rcases List.mem_cons.mp hf with rfl | hfl2
    · exact hmnotl1 hc
    · exact hdisj hc (List.mem_cons_of_mem m hfl2)
  unfold seedRun
  rw [hsplit, List.foldl_append]
  have hlook_m :
      (l1.foldl (seedStep ep dUF g) ⟨store, false, []⟩).store.lookup m
        = store.lookup m :=
    seedFold_lookup_notin ep dUF g l1 ⟨store, false, []⟩ m hmnotl1
  have hget_m :
      FileService.get (l1.foldl (seedStep ep dUF g) ⟨store, false, []⟩).store m
        = FileService.get store m := by
    unfold FileService.get
    rw [hlook_m]
  have hstep := seedStep_marker ep dUF g
    (l1.foldl (seedStep ep dUF g) ⟨store, false, []⟩) m hm_ep hm_unreach
    (by rw [hget_m]; exact hm_marker)
  have hl1 :
      (l1.foldl (seedStep ep dUF g) ⟨store, false, []⟩).store.lookup f
        = store.lookup f :=
    seedFold_lookup_notin ep dUF g l1 ⟨store, false, []⟩ f hfnotl1
  simp only [List.foldl_cons]
  rw [seedFold_flag_true ep dUF g l2 _ hstep.2, hstep.1]
  exact hl1

/-- Witness for C4's amended theorem at a concrete input. -/
theorem seed_marker_disables_witness :
    ([("main", "m"), ("u2", "x ts-remove-unused-skip y"), ("u3", "z")].map
        (fun p => p.1) = ["main"] ++ "u2" :: ["u3"])
    ∧ (seedRun ["main"] true [("main", ⟨[], [], some 0, []⟩)]
        [("main", "m"), ("u2", "x ts-remove-unused-skip y"),
          ("u3", "z")]).store.lookup "u3" = some "z" := by
  refine ⟨rfl, ?_⟩
  have h := seed_marker_disables_deletion_from_then_on ["main"] true
    [("main", ⟨[], [], some 0, []⟩)]
    [("main", "m"), ("u2", "x ts-remove-unused-skip y"), ("u3", "z")]
    ["main"] ["u3"] "u2" rfl (by decide) rfl rfl rfl
  rw [h "u3" (by decide)]
  rfl

/-! ## Helper lemmas for the termination bound -/

theorem measure_step (K a b enq : Nat) (henq : enq ≤ K) (hab : a + 1 ≤ b) :
    (K + 1) * a + enq ≤ (K + 1) * b :=
  calc (K + 1) * a + enq ≤ (K + 1) * a + K := Nat.add_le_add_left henq _
    _ ≤ (K + 1) * a + K + 1 := Nat.le_succ _
    _ = (K + 1) * (a + 1) := by ring
    _ ≤ (K + 1) * b := Nat.mul_le_mul_left _ hab

theorem applyResult_measure
    (ep : List String) (recursive : Bool) (st : RunState) (file : String)
    (w : Store → Nat) (K : Nat) (res : AnalysisResult)
    (hK : ∀ p ∈ st.graph, p.2.to_.length ≤ K)
    (hwDel : w (FileService.delete st.store file) + 1 ≤ w st.store)
    (hwEdit : ∀ c rem, res = .edit c rem → rem ≠ [] →
        w (FileService.set st.store file c) + 1 ≤ w st.store)
    (hwNil : ∀ c, res = .edit c [] →
        w (FileService.set st.store file c) ≤ w st.store) :
    (∀ p ∈ (applyResult ep recursive st (st.graph.lookup file) file res).1.graph,
        p.2.to_.length ≤ K)
    ∧ (K + 1) * w (applyResult ep recursive st (st.graph.lookup file) file res).1.store
        + (applyResult ep recursive st (st.graph.lookup file) file res).2.length
      ≤ (K + 1) * w st.store := by
  cases res with
  | delete =>
    unfold applyResult
    dsimp only
    split
    · exact ⟨hK, by simp⟩
    · cases hv : st.graph.lookup file with
      | none =>
        dsimp only
        refine ⟨hK, ?_⟩
        simp only [List.length_nil, Nat.add_zero]
        exact Nat.mul_le_mul_left _ (by omega)
      | some v =>
        dsimp only
        refine ⟨deleteVertex_to_length hK, ?_⟩
        have hvK : v.to_.length ≤ K :=
          hK (file, v) (mem_of_lookup_eq_some _ _ _ hv)
        have henq :
            (if recursive = true then v.to_.filter (fun x => !ep.contains x)
              else []).length ≤ K := by
          cases recursive
          · simp
          · simpa using le_trans (List.length_filter_le _ _) hvK
        exact measure_step K _ _ _ henq hwDel
  | edit c rem =>
    unfold applyResult
    dsimp only
    cases hv : st.graph.lookup file with
    | none =>
      dsimp only
      refine ⟨hK, ?_⟩
      simp only [List.length_nil, Nat.add_zero]
      have hw : w (FileService.set st.store file c) ≤ w st.store := by
        cases rem with
        | nil => exact hwNil c rfl
        | cons a t => exact le_trans (Nat.le_succ _) (hwEdit c (a :: t) rfl (by simp))
      exact Nat.mul_le_mul_left _ hw
    | some v =>
      dsimp only
      split
      next hcond =>
        have hrem : rem ≠ [] := by
          intro hnil
          subst hnil
          simp at hcond
        have hvK : v.to_.length ≤ K :=
          hK (file, v) (mem_of_lookup_eq_some _ _ _ hv)
        have henq : (v.to_.filter (fun x => !ep.contains x)).length ≤ K :=
          le_trans (List.length_filter_le _ _) hvK
        exact ⟨hK, measure_step K _ _ _ henq (hwEdit c rem rfl hrem)⟩
      next hcond =>
        refine ⟨hK, ?_⟩
        simp only [List.length_nil, Nat.add_zero]
        have hw : w (FileService.set st.store file c) ≤ w st.store := by
          cases rem with
          | nil => exact hwNil c rfl
          | cons a t =>
            exact le_trans (Nat.le_succ _) (hwEdit c (a :: t) rfl (by simp))
        exact Nat.mul_le_mul_left _ hw

theorem taskStep_measure
    (ep : List String) (recursive : Bool)
    (analyze : String → RunState → AnalysisResult)
    (w : Store → Nat) (K : Nat)
    (hEdit : ∀ (f : String) (st : RunState) (c : String)
        (rem : List RemovedExport),
        FileService.exists' st.store f = true → analyze f st = .edit c rem →
        rem ≠ [] → w (FileService.set st.store f c) < w st.store)
    (hNil : ∀ (f : String) (st : RunState) (c : String),
        FileService.exists' st.store f = true → analyze f st = .edit c [] →
        w (FileService.set st.store f c) ≤ w st.store)
    (hDel : ∀ (s : Store) (f : String), FileService.exists' s f = true →
        w (FileService.delete s f) < w s)
    (st : RunState) (file : String)
    (hK : ∀ p ∈ st.graph, p.2.to_.length ≤ K) :
    (∀ p ∈ (taskStep ep recursive analyze st st file).1.graph,
        p.2.to_.length ≤ K)
    ∧ (K + 1) * w (taskStep ep recursive analyze st st file).1.store
        + (taskStep ep recursive analyze st st file).2.length
      ≤ (K + 1) * w st.store := by
  unfold taskStep
  split
  · exact ⟨hK, by simp⟩
  next h =>
    dsimp only
    have hex : FileService.exists' st.store file = true := by simpa using h
    exact applyResult_measure ep recursive st file w K (analyze file st) hK
      (hDel st.store file hex)
      (fun c rem hres hrem => hEdit file st c rem hex hres hrem)
      (fun c hres => hNil file st c hex hres)

/-- Witness for C10 at a concrete input: two identical matching statements,
only the first removed, the duplicate remains. -/
theorem removeWhole_removes_only_first_witness :
    (∀ s ∈ [(⟨false, none, false⟩ : Stmt)], matchesWholeReexport s "./c" = false)
    ∧ matchesWholeReexport ⟨true, some "./c", false⟩ "./c" = true
    ∧ removeWholeExportSpecifier
        [⟨false, none, false⟩, ⟨true, some "./c", false⟩, ⟨true, some "./c", false⟩]
        "./c"
      = some [⟨false, none, false⟩, ⟨true, some "./c", false⟩]
    ∧ (⟨true, some "./c", false⟩ : Stmt)
        ∈ [(⟨false, none, false⟩ : Stmt), ⟨true, some "./c", false⟩] := by
  refine ⟨by decide, rfl, ?_, by decide⟩
  have h := removeWhole_removes_only_first [⟨false, none, false⟩]
    [⟨true, some "./c", false⟩] ⟨true, some "./c", false⟩ "./c" (by decide) rfl
  exact h.1

/-- C2 counterexample: the claimed bound `|modules| × max-exports-per-module`
fails.  Two modules `A` and `B`, each importing the other and each carrying a
single export; `A`'s first analysis removes its one export (re-enqueueing
`B`), `B`'s first analysis removes its one export (re-enqueueing `A`), and
the remaining analyses are no-ops.  The sequential run executes 4 tasks,
exceeding `2 × 1 = 2` — even though every task is re-enqueued only after a
delete or a non-empty edit, exactly as the code does. -/
theorem task_executions_exceed_claimed_bound :
    (runLoop [] true
      (fun f st =>
        if f == "A" then
          if FileService.get st.store "A" == "a0" then .edit "a1" [⟨"A", 0, "x"⟩]
          else .edit (FileService.get st.store "A") []
        else
          if FileService.get st.store "B" == "b0" then .edit "b1" [⟨"B", 0, "y"⟩]
          else .edit (FileService.get st.store "B") [])
      10
      ⟨[("A", "a0"), ("B", "b0")],
        [("A", ⟨["B"], ["B"], some 1, []⟩), ("B", ⟨["A"], ["A"], some 1, []⟩)], []⟩
      ["A", "B"]).2.1 = 4
    ∧ ¬((runLoop [] true
      (fun f st =>
        if f == "A" then
          if FileService.get st.store "A" == "a0" then .edit "a1" [⟨"A", 0, "x"⟩]
          else .edit (FileService.get st.store "A") []
        else
          if FileService.get st.store "B" == "b0" then .edit "b1" [⟨"B", 0, "y"⟩]
          else .edit (FileService.get st.store "B") [])
      10
      ⟨[("A", "a0"), ("B", "b0")],
        [("A", ⟨["B"], ["B"], some 1, []⟩), ("B", ⟨["A"], ["A"], some 1, []⟩)], []⟩
      ["A", "B"]).2.1 ≤ 2 * 1) := by
  refine ⟨by decide, by decide⟩

/-- C2 (amended): a task is re-enqueued only after a result that deletes a
module or after an edit whose removed-export list is non-empty (the only two
places that enqueue), and the sequential task loop reaches fixpoint within a
bounded number of task executions — but the bound is `(K + 1) × W + Q₀`, not
`|modules| × max-exports-per-module`: `w` is any measure of the store that
strictly drops on every module deletion and on every export-removing edit
(for example the number of live modules plus remaining exports, so
`W ≤ |modules| × (max-exports + 1)`), `K` bounds every vertex's `to`-set
size, and `Q₀` is the initial queue length.  With fuel at least the bound,
the queue empties (fixpoint) and the number of task executions never exceeds
`(K + 1) * w store₀ + Q₀`. -/
theorem runLoop_fixpoint_bound
    (ep : List String) (recursive : Bool)
    (analyze : String → RunState → AnalysisResult)
    (w : Store → Nat) (K : Nat)
    (hEdit : ∀ (f : String) (st : RunState) (c : String)
        (rem : List RemovedExport),
        FileService.exists' st.store f = true → analyze f st = .edit c rem →
        rem ≠ [] → w (FileService.set st.store f c) < w st.store)
    (hNil : ∀ (f : String) (st : RunState) (c : String),
        FileService.exists' st.store f = true → analyze f st = .edit c [] →
        w (FileService.set st.store f c) ≤ w st.store)
    (hDel : ∀ (s : Store) (f : String), FileService.exists' s f = true →
        w (FileService.delete s f) < w s) :
    ∀ (fuel : Nat) (st : RunState) (queue : List String),
      (∀ p ∈ st.graph, p.2.to_.length ≤ K) →
      (K + 1) * w st.store + queue.length ≤ fuel →
      (runLoop ep recursive analyze fuel st queue).2.2 = true
      ∧ (runLoop ep recursive analyze fuel st queue).2.1
          ≤ (K + 1) * w st.store + queue.length := by
  intro fuel
  induction fuel with
  | zero =>
    intro st queue hK hle
    cases queue with
    | nil => simp [runLoop]
    | cons a t => simp at hle
  | succ n ih =>
    intro st queue hK hle
    cases queue with
    | nil => simp [runLoop]
    | cons f rest =>
      have hstep := taskStep_measure ep recursive analyze w K hEdit hNil hDel
        st f hK
      have hm := hstep.2
      have hle' : (K + 1) * w (taskStep ep recursive analyze st st f).1.store
          + (rest ++ (taskStep ep recursive analyze st st f).2).length ≤ n := by
        rw [List.length_append]
        rw [List.length_cons] at hle
        set A := (K + 1) * w st.store with hA
        set B := (K + 1) * w (taskStep ep recursive analyze st st f).1.store
          with hB
        omega
      have hres := ih (taskStep ep recursive analyze st st f).1
        (rest ++ (taskStep ep recursive analyze st st f).2) hstep.1 hle'
      have hgoal :
          runLoop ep recursive analyze (n + 1) st (f :: rest)
            = ((runLoop ep recursive analyze n
                  (taskStep ep recursive analyze st st f).1
                  (rest ++ (taskStep ep recursive analyze st st f).2)).1,
              (runLoop ep recursive analyze n
                  (taskStep ep recursive analyze st st f).1
                  (rest ++ (taskStep ep recursive analyze st st f).2)).2.1 + 1,
              (runLoop ep recursive analyze n
                  (taskStep ep recursive analyze st st f).1
                  (rest ++ (taskStep ep recursive analyze st st f).2)).2.2) := by
        rfl
      rw [hgoal]
      dsimp only
      refine ⟨hres.1, ?_⟩
      have hc := hres.2
      rw [List.length_append] at hc
      rw [List.length_cons]
      set A := (K + 1) * w st.store with hA
      set B := (K + 1) * w (taskStep ep recursive analyze st st f).1.store
        with hB
      omega

/-- Witness for C2's amended theorem at a concrete input. -/
theorem runLoop_fixpoint_bound_witness :
    (runLoop [] true (fun _ _ => AnalysisResult.edit "" []) 2
        ⟨[("a", "x")], [], []⟩ ["a"]).2.2 = true
    ∧ (runLoop [] true (fun _ _ => AnalysisResult.edit "" []) 2
        ⟨[("a", "x")], [], []⟩ ["a"]).2.1 ≤ 2 := by
  have h := runLoop_fixpoint_bound [] true (fun _ _ => AnalysisResult.edit "" [])
    (fun s => s.length) 0
    (by
      intro f st c rem _ heq hne
      cases heq
      exact absurd rfl hne)
    (by
      intro f st c hex heq
      cases heq
      exact le_of_eq (length_set_of_exists st.store f "" hex))
    (by
      intro s f hex
      exact length_delete_lt s f hex)
    2 ⟨[("a", "x")], [], []⟩ ["a"] (by simp) (by simp)
  exact ⟨h.1, le_trans h.2 (by simp)⟩

end Tsr
